import Mathlib

/-!
Verification of the pre-Trott-constant search notebook.

The notebook's numeric core is embedded shallowly:

* Python unbounded integers become `Int` / `Nat`.
* Python strings become `List Char`.
* The mpmath arbitrary-precision values are modelled by exact rationals
  (`ℚ`): mpmath is required by the code to carry at least 16 decimal
  digits beyond every character that is ever compared (default
  `mp.dps = 15` plus the `extradps(precision + 1)` blocks), so on the
  compared prefix the exact value and the float agree unless the exact
  expansion carries a run of more than a dozen identical digits across
  the display boundary; the rendering function `mp_str` below models
  `str()` of an mpmath float applied to the exactly computed value.
* The `while` loop of `count_digits` is translated with an explicit
  iteration bound (`digit_loop_fuel`): the loop divides its counter by
  10 each step, so `num.toNat` steps always suffice.  This keeps the
  function structurally recursive, hence evaluable by the kernel.
-/

/-- One iteration bound worth of the loop `while num > 0: num //= 10;
total += 1` from `count_digits`.  `fuel` only bounds the number of
iterations; it is always called with enough fuel to finish the loop. -/
def digit_loop_fuel : Nat → Int → Nat
  | 0, _ => 0
  | fuel + 1, num => if 0 < num then digit_loop_fuel fuel (num / 10) + 1 else 0

/-- The digit-counting loop of `count_digits` for a single term: the
number of times `num` can be divided by 10 before reaching 0.  A term
`≤ 0` never enters the loop and contributes 0. -/
def digit_loop (num : Int) : Nat :=
  digit_loop_fuel num.toNat num

/-- `count_digits(cf_list)`: total number of decimal digits in a list of
numbers, accumulated exactly as the Python loop does. -/
def count_digits (cf_list : List Int) : Nat :=
  cf_list.foldl (fun total num => total + digit_loop num) 0

/-- `cf_to_real(cf_list, precision)`: loop through the list backwards,
starting from `curr = 0`, updating `curr = 1 / (item + curr)`.  The
mpmath float is modelled by the exact rational value; the precision
argument only sizes the float context in the source and does not affect
the exact value. -/
def cf_to_real (cf_list : List Int) (_precision : Nat) : ℚ :=
  cf_list.reverse.foldl (fun (curr : ℚ) (item : Int) => 1 / ((item : ℚ) + curr)) 0

/-- `cf_to_real` with mpmath's division-by-zero error made explicit:
`1 / mpf(item + curr)` raises `ZeroDivisionError` when `item + curr`
is zero, which is modelled by `none`. -/
def cf_to_real_checked (cf_list : List Int) (_precision : Nat) : Option ℚ :=
  cf_list.reverse.foldlM
    (fun (curr : ℚ) (item : Int) =>
      if ((item : ℚ) + curr) = 0 then none else some (1 / ((item : ℚ) + curr)))
    0

/-- The mathematical value of the continued fraction
`1/(a1 + 1/(a2 + ... + 1/an))` with integer part 0, written exactly as
the specification describes it (used to compare against `cf_to_real`). -/
def cf_value : List Int → ℚ
  | [] => 0
  | a :: rest => 1 / ((a : ℚ) + cf_value rest)

/-- Little-endian base-10 digit list of a natural number, with an
explicit iteration bound (`n` steps always suffice).  Computable
counterpart of `Nat.digits 10`. -/
def nat_rev_digits : Nat → Nat → List Nat
  | 0, _ => []
  | fuel + 1, n => if n = 0 then [] else n % 10 :: nat_rev_digits fuel (n / 10)

/-- Model of Python `str` on a natural number: its decimal digit
characters, most significant first. -/
def nat_str (n : Nat) : List Char :=
  if n = 0 then ['0'] else ((nat_rev_digits n n).reverse).map Nat.digitChar

/-- Model of Python `str` on an integer. -/
def int_str (t : Int) : List Char :=
  if t < 0 then '-' :: nat_str t.natAbs else nat_str t.toNat

/-- `cf_to_trott_approx(cf_list)`: the string `"0." + "".join(map(str,
cf_list))`, as a character list. -/
def cf_to_trott_approx (cf_list : List Int) : List Char :=
  '0' :: '.' :: (cf_list.map int_str).flatten

/-- Floor of a rational, computed directly from its reduced fraction
(`Int` division rounds down for the positive denominator). -/
def floorQ (q : ℚ) : Int :=
  q.num / (q.den : Int)

/-- The `k`-th fractional digit (0-indexed) of the decimal expansion of
`q`, for `q` in `[0, 1)`: `⌊q·10^(k+1)⌋ mod 10`. -/
def truncDigit (q : ℚ) (k : Nat) : Nat :=
  ((floorQ (q * 10 ^ (k + 1))) % 10).toNat

/-- The first `n` fractional digits of the decimal expansion of `q`. -/
def fracDigits (q : ℚ) (n : Nat) : List Nat :=
  (List.range n).map (truncDigit q)

/-- Drop trailing zero digits, keeping at least one digit (mpmath's
`to_str` strips trailing zeros but always shows at least one fractional
digit, e.g. `str(mpf(0)) = "0.0"`). -/
def stripTrailZeros (ds : List Nat) : List Nat :=
  let s := ((ds.reverse).dropWhile (· == 0)).reverse
  if s.isEmpty then [0] else s

/-- Model of `str()` of the value `cf_to_real` returns, for values
`q ∈ [0, 1]`, shown with `dps` significant decimal digits.  The value 0
arises only for the empty sequence, where the loop never runs and
`curr` is still the Python int `0`, so `str` gives `"0"`.  A non-empty
sequence yields an mpf: `"1.0"` for the value one, otherwise `"0."`
followed by the decimal expansion of `q`, truncated at `dps` digits and
stripped of trailing zeros (a positive mpf cannot be 0).  The display
rounding mpmath performs at digit `dps` (16 digits beyond every
compared character) and the float's own error in that same region are
not modelled; they cannot reach the compared prefix unless the exact
expansion has a run of more than a dozen equal digits ending at the
display boundary. -/
def mp_str (q : ℚ) (dps : Nat) : List Char :=
  if q = 0 then ['0']
  else if q = 1 then ['1', '.', '0']
  else '0' :: '.' :: (stripTrailZeros (fracDigits q dps)).map Nat.digitChar

/-- `valid_trott(cf_list)`: compare the first `precision` characters of
the rendered value of the continued fraction against the target string
`"0." + concatenated digits`.  `precision = count_digits + 2`, and the
rendering happens at ambient working precision `mp.dps = 15` plus
`extradps(precision + 1)`, i.e. `precision + 16` significant digits. -/
def valid_trott (cf_list : List Int) : Bool :=
  let precision := count_digits cf_list + 2
  let real := (mp_str (cf_to_real cf_list precision) (precision + 16)).take precision
  let want := cf_to_trott_approx cf_list
  real == want

/-- `valid_trott` with the evaluator's `ZeroDivisionError` made
explicit: the predicate calls `cf_to_real` with no exception handling,
so an evaluation error escapes it uncaught (`none`); otherwise the
rendered-string comparison of `valid_trott` is performed. -/
def valid_trott_checked (cf_list : List Int) : Option Bool :=
  let precision := count_digits cf_list + 2
  match cf_to_real_checked cf_list precision with
  | none => none
  | some q =>
    some ((mp_str q (precision + 16)).take precision == cf_to_trott_approx cf_list)

/-- `trott_backtracking(current_cf, count, max_items, max_size)`: when
`count < max_items`, try every term `a` in `range(1, max_size)`, keep
the extensions passing `valid_trott`, then report each kept extension
(`print`, modelled by appending it to the returned list) and recurse
into it with `count + 1`.  The returned list is the sequence of
reported sequences in print order. -/
def trott_backtracking (current_cf : List Int) (count max_items max_size : Nat) :
    List (List Int) :=
  if h : count < max_items then
    let valid :=
      ((List.range' 1 (max_size - 1)).map (fun (a : Nat) => current_cf ++ [(a : Int)])).filter
        valid_trott
    if valid.isEmpty then []
    else valid.flatMap fun v => v :: trott_backtracking v (count + 1) max_items max_size
  else []
termination_by max_items - count
decreasing_by omega

/-- Fuel-indexed version of `trott_backtracking`, structurally recursive
so that the kernel can evaluate it; `max_items - count` units of fuel
always suffice (`bt_fuel_spec`). -/
def bt_fuel : Nat → List Int → Nat → Nat → Nat → List (List Int)
  | 0, _, _, _, _ => []
  | fuel + 1, current_cf, count, max_items, max_size =>
    if count < max_items then
      let valid :=
        ((List.range' 1 (max_size - 1)).map (fun (a : Nat) => current_cf ++ [(a : Int)])).filter
          valid_trott
      if valid.isEmpty then []
      else valid.flatMap fun v => v :: bt_fuel fuel v (count + 1) max_items max_size
    else []

/-- Claim-side digit sequence of the Trott target: the base-10 digits of
every term, most significant first, concatenated in term order. -/
def targetDigits (l : List Int) : List Nat :=
  (l.map (fun t => (Nat.digits 10 t.toNat).reverse)).flatten

section PrefixLemmas

variable {α : Type _} {l₁ l₂ l₃ : List α}

lemma pre_len (h : l₁ <+: l₂) : l₁.length ≤ l₂.length := by
  obtain ⟨r, rfl⟩ := h; simp

lemma take_pre (n : Nat) (l : List α) : l.take n <+: l :=
  ⟨l.drop n, List.take_append_drop n l⟩

lemma pre_take_eq {n : Nat} (h : l₁ <+: l₂) (hn : n ≤ l₁.length) :
    l₂.take n = l₁.take n := by
  obtain ⟨r, rfl⟩ := h
  rw [List.take_append_eq_append_take, Nat.sub_eq_zero_of_le hn, List.take_zero,
    List.append_nil]

lemma pre_full_take (h : l₁ <+: l₂) : l₂.take l₁.length = l₁ := by
  rw [pre_take_eq h le_rfl, List.take_length]

lemma take_len_pre (h : l₂.take l₁.length = l₁) : l₁ <+: l₂ :=
  h ▸ take_pre _ _

lemma pre_trans (h1 : l₁ <+: l₂) (h2 : l₂ <+: l₃) : l₁ <+: l₃ := by
  obtain ⟨r, rfl⟩ := h1; obtain ⟨s, rfl⟩ := h2
  exact ⟨r ++ s, by rw [List.append_assoc]⟩

lemma pre_chain (h1 : l₁ <+: l₃) (h2 : l₂ <+: l₃) (h : l₁.length ≤ l₂.length) :
    l₁ <+: l₂ := by
  refine take_len_pre ?_
  rw [← pre_full_take h2, List.take_take, min_eq_left_iff.mpr h, pre_full_take h1]

lemma pre_antisym (h : l₁ <+: l₂) (hl : l₂.length ≤ l₁.length) : l₁ = l₂ := by
  obtain ⟨r, rfl⟩ := h
  have : r = [] := by
    refine List.eq_nil_of_length_eq_zero ?_
    have := List.length_append l₁ r
    omega
  simp [this]

lemma pre_getElem (h : l₁ <+: l₂) {i : Nat} (hi : i < l₁.length)
    (hi' : i < l₂.length) : l₂[i] = l₁[i] := by
  obtain ⟨r, rfl⟩ := h
  exact List.getElem_append_left hi

end PrefixLemmas

lemma digit_loop_fuel_eq {fuel n : Nat} (h : n ≤ fuel) :
    digit_loop_fuel fuel (n : Int) = (Nat.digits 10 n).length := by
  induction fuel generalizing n with
  | zero =>
    have : n = 0 := by omega
    subst this
    simp [digit_loop_fuel]
  | succ fuel ih =>
    rcases Nat.eq_zero_or_pos n with h0 | h0
    · subst h0; simp [digit_loop_fuel]
    · have hcast : ((n : Int)) / 10 = ((n / 10 : Nat) : Int) := by omega
      have hlt : n / 10 ≤ fuel := by
        have := Nat.div_lt_self h0 (by norm_num : 1 < 10)
        omega
      rw [digit_loop_fuel, if_pos (by exact_mod_cast h0), hcast, ih hlt,
        Nat.digits_def' (by norm_num : 1 < 10) h0]
      simp

lemma digit_loop_eq (t : Int) : digit_loop t = (Nat.digits 10 t.toNat).length := by
  unfold digit_loop
  rcases t with n | m
  · exact digit_loop_fuel_eq le_rfl
  · simp [digit_loop_fuel, Int.toNat]

lemma count_digits_foldl (l : List Int) (acc : Nat) :
    l.foldl (fun total num => total + digit_loop num) acc =
      acc + (l.map (fun t => (Nat.digits 10 t.toNat).length)).sum := by
  induction l generalizing acc with
  | nil => simp
  | cons t l ih =>
    rw [List.foldl_cons, ih, digit_loop_eq]
    simp only [List.map_cons, List.sum_cons]
    omega

/-- `count_digits` equals the total length of the base-10 digit strings
of the terms (with a term `t ≤ 0` contributing `digits 10 0 = []`). -/
lemma count_digits_eq (l : List Int) :
    count_digits l = (l.map (fun t => (Nat.digits 10 t.toNat).length)).sum := by
  rw [count_digits, count_digits_foldl]
  omega

lemma nat_rev_digits_eq {fuel n : Nat} (h : n ≤ fuel) :
    nat_rev_digits fuel n = Nat.digits 10 n := by
  induction fuel generalizing n with
  | zero =>
    have : n = 0 := by omega
    subst this
    simp [nat_rev_digits]
  | succ fuel ih =>
    rcases Nat.eq_zero_or_pos n with h0 | h0
    · subst h0; simp [nat_rev_digits]
    · have hlt : n / 10 ≤ fuel := by
        have := Nat.div_lt_self h0 (by norm_num : 1 < 10)
        omega
      rw [nat_rev_digits, if_neg (by omega), ih hlt,
        Nat.digits_def' (by norm_num : 1 < 10) h0]

lemma nat_str_pos {n : Nat} (h : n ≠ 0) :
    nat_str n = ((Nat.digits 10 n).reverse).map Nat.digitChar := by
  rw [nat_str, if_neg h, nat_rev_digits_eq le_rfl]

lemma int_str_pos {t : Int} (h : 0 < t) :
    int_str t = ((Nat.digits 10 t.toNat).reverse).map Nat.digitChar := by
  rw [int_str, if_neg (by omega), nat_str_pos (by omega)]

lemma target_chars {l : List Int} (h : ∀ t ∈ l, 0 < t) :
    (l.map int_str).flatten = (targetDigits l).map Nat.digitChar := by
  rw [targetDigits, List.map_flatten, List.map_map]
  refine congrArg List.flatten (List.map_congr_left fun t ht => ?_)
  exact int_str_pos (h t ht)

lemma targetDigits_len (l : List Int) : (targetDigits l).length = count_digits l := by
  rw [targetDigits, List.length_flatten, count_digits_eq, List.map_map]
  refine congrArg List.sum (List.map_congr_left fun t _ => ?_)
  simp

lemma targetDigits_lt (l : List Int) : ∀ x ∈ targetDigits l, x < 10 := by
  intro x hx
  rw [targetDigits, List.mem_flatten] at hx
  obtain ⟨ds, hds, hxds⟩ := hx
  rw [List.mem_map] at hds
  obtain ⟨t, _, rfl⟩ := hds
  rw [List.mem_reverse] at hxds
  exact Nat.digits_lt_base (by norm_num) hxds

lemma truncDigit_lt (q : ℚ) (k : Nat) : truncDigit q k < 10 := by
  simp only [truncDigit]
  omega

lemma fracDigits_length (q : ℚ) (n : Nat) : (fracDigits q n).length = n := by
  simp [fracDigits]

lemma fracDigits_lt (q : ℚ) (n : Nat) : ∀ x ∈ fracDigits q n, x < 10 := by
  intro x hx
  rw [fracDigits, List.mem_map] at hx
  obtain ⟨k, _, rfl⟩ := hx
  exact truncDigit_lt q k

lemma fracDigits_take (q : ℚ) {d n : Nat} (h : d ≤ n) :
    (fracDigits q n).take d = fracDigits q d := by
  rw [fracDigits, fracDigits, ← List.map_take, List.take_range, min_eq_left_iff.mpr h]

lemma fracDigits_getElem (q : ℚ) {n i : Nat}
    (h' : i < (fracDigits q n).length) :
    (fracDigits q n)[i] = truncDigit q i := by
  simp [fracDigits]

lemma truncDigit_one (k : Nat) : truncDigit 1 k = 0 := by
  have h1 : (1 : ℚ) * 10 ^ (k + 1) = ((10 ^ (k + 1) : ℤ) : ℚ) := by push_cast; ring
  rw [truncDigit, h1, floorQ, Rat.num_intCast, Rat.den_intCast, Nat.cast_one,
    Int.ediv_one, pow_succ, Int.mul_emod_left]
  rfl

lemma strip_pre {ds : List Nat} (h : ds ≠ []) : stripTrailZeros ds <+: ds := by
  unfold stripTrailZeros
  by_cases he : (((ds.reverse).dropWhile (· == 0)).reverse).isEmpty
  · rw [if_pos he]
    have hnil : List.dropWhile (· == 0) ds.reverse = [] := by
      rw [List.isEmpty_iff, List.reverse_eq_nil_iff] at he
      exact he
    have hall : ∀ x ∈ ds, x = 0 := by
      intro x hx
      have := List.dropWhile_eq_nil_iff.mp hnil x (List.mem_reverse.mpr hx)
      simpa using this
    obtain ⟨y, ys, rfl⟩ := List.exists_cons_of_ne_nil h
    have hy : y = 0 := hall y (List.mem_cons_self y ys)
    exact ⟨ys, by rw [hy]; rfl⟩
  · rw [if_neg he]
    have hsuf : List.dropWhile (· == 0) ds.reverse <:+ ds.reverse :=
      List.dropWhile_suffix _
    refine List.reverse_suffix.mp ?_
    simpa using hsuf

lemma digitChar_inj :
    ∀ a, a < 10 → ∀ b, b < 10 → Nat.digitChar a = Nat.digitChar b → a = b := by
  decide

lemma map_digitChar_inj {xs ys : List Nat} (hx : ∀ x ∈ xs, x < 10)
    (hy : ∀ y ∈ ys, y < 10) (h : xs.map Nat.digitChar = ys.map Nat.digitChar) :
    xs = ys := by
  induction xs generalizing ys with
  | nil => cases ys with
    | nil => rfl
    | cons y ys => simp at h
  | cons x xs ih =>
    cases ys with
    | nil => simp at h
    | cons y ys =>
      simp only [List.map_cons, List.cons.injEq] at h
      obtain ⟨h1, h2⟩ := h
      have hx0 := hx x (List.mem_cons_self x xs)
      have hy0 := hy y (List.mem_cons_self y ys)
      refine congrArg₂ List.cons (digitChar_inj x hx0 y hy0 h1) ?_
      exact ih (fun a ha => hx a (List.mem_cons_of_mem x ha))
        (fun a ha => hy a (List.mem_cons_of_mem y ha)) h2

lemma take_cons2 {α : Type _} (a b : α) (xs : List α) (d : Nat) :
    (a :: b :: xs).take (d + 2) = a :: b :: xs.take d :=
  rfl

/-- Comparing the first `d` displayed characters of a stripped digit
string with the `d` target digit characters is the same as the target
digits being an expansion prefix together with the stripped string being
long enough. -/
lemma take_digits_eq_iff {ds tdl : List Nat} {d : Nat}
    (hds10 : ∀ x ∈ ds, x < 10) (htdl10 : ∀ x ∈ tdl, x < 10)
    (htlen : tdl.length = d) (hdsne : ds ≠ []) :
    ((stripTrailZeros ds).map Nat.digitChar).take d = tdl.map Nat.digitChar ↔
      (tdl <+: ds ∧ d ≤ (stripTrailZeros ds).length) := by
  constructor
  · intro heq
    have hlen : (((stripTrailZeros ds).map Nat.digitChar).take d).length = d := by
      rw [heq, List.length_map, htlen]
    have hstlen : d ≤ (stripTrailZeros ds).length := by
      rw [List.length_take, List.length_map] at hlen
      omega
    refine ⟨?_, hstlen⟩
    have h2 : (stripTrailZeros ds).take d = ds.take d :=
      (pre_take_eq (strip_pre hdsne) hstlen).symm
    rw [← List.map_take, h2] at heq
    have h3 : ds.take d = tdl :=
      map_digitChar_inj (fun x hx => hds10 x (List.mem_of_mem_take hx)) htdl10 heq
    exact take_len_pre (htlen ▸ h3)
  · rintro ⟨hp, hstlen⟩
    have h2 : (stripTrailZeros ds).take d = ds.take d :=
      (pre_take_eq (strip_pre hdsne) hstlen).symm
    have h3 : ds.take d = tdl := by rw [← htlen]; exact pre_full_take hp
    rw [← List.map_take, h2, h3]

lemma targetDigits_cons (t : Int) (l' : List Int) :
    targetDigits (t :: l') = (Nat.digits 10 t.toNat).reverse ++ targetDigits l' := by
  rw [targetDigits, List.map_cons, List.flatten_cons]
  rfl

lemma leading_digit_ne {m : Nat} (h : m ≠ 0)
    (hl : 0 < ((Nat.digits 10 m).reverse).length) :
    ((Nat.digits 10 m).reverse)[0] ≠ 0 := by
  have hne : Nat.digits 10 m ≠ [] := Nat.digits_ne_nil_iff_ne_zero.mpr h
  have hlast := Nat.getLast_digit_ne_zero 10 h
  rw [List.getLast_eq_getElem] at hlast
  rw [List.getElem_reverse]
  simpa using hlast



lemma cf_to_real_eq_value (l : List Int) (P : Nat) : cf_to_real l P = cf_value l := by
  induction l with
  | nil => rfl
  | cons a l ih =>
    rw [cf_value, ← ih]
    simp only [cf_to_real, List.reverse_cons, List.foldl_append, List.foldl_cons,
      List.foldl_nil]

lemma cf_fold_inv (L : List Int) :
    ∀ c : ℚ, (∀ t ∈ L, 1 ≤ t) → 0 ≤ c → c ≤ 1 →
      0 ≤ L.foldl (fun (curr : ℚ) (item : Int) => 1 / ((item : ℚ) + curr)) c ∧
      L.foldl (fun (curr : ℚ) (item : Int) => 1 / ((item : ℚ) + curr)) c ≤ 1 ∧
      L.foldlM
          (fun (curr : ℚ) (item : Int) =>
            if ((item : ℚ) + curr) = 0 then none
            else some (1 / ((item : ℚ) + curr))) c =
        some (L.foldl (fun (curr : ℚ) (item : Int) => 1 / ((item : ℚ) + curr)) c) ∧
      ((0 < c ∨ L ≠ []) →
        0 < L.foldl (fun (curr : ℚ) (item : Int) => 1 / ((item : ℚ) + curr)) c) := by
  induction L with
  | nil =>
    intro c _ h0 h1
    refine ⟨h0, h1, rfl, ?_⟩
    rintro (hc | hne)
    · exact hc
    · simp at hne
  | cons t L ih =>
    intro c hL h0 h1
    have ht : (1 : ℚ) ≤ (t : ℚ) := by exact_mod_cast hL t (List.mem_cons_self t L)
    have hdpos : (0 : ℚ) < (t : ℚ) + c := by linarith
    have hdne : ((t : ℚ) + c) ≠ 0 := ne_of_gt hdpos
    have hc' : 0 < 1 / ((t : ℚ) + c) := by positivity
    have hc1 : 1 / ((t : ℚ) + c) ≤ 1 := by
      rw [div_le_one hdpos]
      linarith
    obtain ⟨ih0, ih1, ihm, ihp⟩ :=
      ih (1 / ((t : ℚ) + c)) (fun x hx => hL x (List.mem_cons_of_mem t hx))
        (le_of_lt hc') hc1
    refine ⟨by simpa using ih0, by simpa using ih1, ?_, ?_⟩
    · rw [List.foldlM_cons, if_neg hdne]
      simpa using ihm
    · intro _
      simpa using ihp (Or.inl hc')

/-- Totality and range of the CF evaluator on sequences of terms `≥ 1`:
no division by zero happens, and the value lies in `[0, 1]`
(in `(0, 1]` for a non-empty sequence). -/
lemma cf_real_props {l : List Int} (h : ∀ t ∈ l, 1 ≤ t) (P : Nat) :
    cf_to_real_checked l P = some (cf_to_real l P) ∧
      0 ≤ cf_to_real l P ∧ cf_to_real l P ≤ 1 ∧
      (l ≠ [] → 0 < cf_to_real l P) := by
  have hrev : ∀ t ∈ l.reverse, (1 : Int) ≤ t := fun t ht => h t (List.mem_reverse.mp ht)
  obtain ⟨h0, h1, hm, hp⟩ := cf_fold_inv l.reverse 0 hrev le_rfl zero_le_one
  exact ⟨hm, h0, h1, fun hne => hp (Or.inr (by simpa using hne))⟩

/-- Central characterization of the Validity Predicate, for non-empty
sequences of positive terms: it holds exactly when the target digits
are an initial segment of the decimal expansion of the evaluated value
AND the rendered (zero-stripped) string is still at least
`count_digits` fractional digits long.  (The empty sequence is handled
separately: its value is the plain int 0, rendered `"0"`, and the
predicate rejects it.) -/
lemma valid_trott_iff_digits {l : List Int} (hne : l ≠ []) (h : ∀ t ∈ l, 1 ≤ t) :
    valid_trott l = true ↔
      (targetDigits l <+:
          fracDigits (cf_to_real l (count_digits l + 2)) (count_digits l + 2 + 16) ∧
        count_digits l ≤
          (stripTrailZeros
              (fracDigits (cf_to_real l (count_digits l + 2))
                (count_digits l + 2 + 16))).length) := by
  have hpos : ∀ t ∈ l, (0 : Int) < t := fun t ht => lt_of_lt_of_le zero_lt_one (h t ht)
  have hq0 : cf_to_real l (count_digits l + 2) ≠ 0 :=
    ne_of_gt ((cf_real_props h (count_digits l + 2)).2.2.2 hne)
  have hdsne :
      fracDigits (cf_to_real l (count_digits l + 2)) (count_digits l + 2 + 16) ≠ [] := by
    intro hc
    have := fracDigits_length (cf_to_real l (count_digits l + 2)) (count_digits l + 2 + 16)
    rw [hc] at this
    simp at this
  rcases eq_or_ne (cf_to_real l (count_digits l + 2)) 1 with h1 | h1
  · -- the evaluated value is exactly 1: both sides are false
    obtain ⟨t, l', rfl⟩ := List.exists_cons_of_ne_nil hne
    have htne : t.toNat ≠ 0 := by
      have := h t (List.mem_cons_self t l')
      omega
    have hdigne : Nat.digits 10 t.toNat ≠ [] := Nat.digits_ne_nil_iff_ne_zero.mpr htne
    have hdiglen : 0 < (Nat.digits 10 t.toNat).length := List.length_pos.mpr hdigne
    have hd1 : 1 ≤ count_digits (t :: l') := by
      rw [count_digits_eq, List.map_cons, List.sum_cons]
      omega
    constructor
    · intro hval
      exfalso
      simp only [valid_trott, beq_iff_eq] at hval
      rw [h1, mp_str, if_neg (by norm_num : (1 : ℚ) ≠ 0), if_pos rfl,
        cf_to_trott_approx] at hval
      rw [take_cons2] at hval
      injection hval with hc _
      exact absurd hc (by decide)
    · rintro ⟨hpre, _⟩
      exfalso
      have h0t : 0 < (targetDigits (t :: l')).length := by
        rw [targetDigits_len]
        omega
      have h0d :
          0 <
            (fracDigits (cf_to_real (t :: l') (count_digits (t :: l') + 2))
                (count_digits (t :: l') + 2 + 16)).length := by
        rw [fracDigits_length]
        omega
      have hge := pre_getElem hpre h0t h0d
      rw [fracDigits_getElem _ h0d, h1, truncDigit_one] at hge
      have htd0 : (targetDigits (t :: l'))[0] ≠ 0 := by
        have e0 := List.getElem_of_eq (targetDigits_cons t l') h0t
        rw [e0, List.getElem_append_left (by simpa using hdiglen)]
        exact leading_digit_ne htne (by simpa using hdiglen)
      exact htd0 hge.symm
  · -- the evaluated value is strictly between 0 and 1: compare characters
    simp only [valid_trott, beq_iff_eq]
    rw [mp_str, if_neg hq0, if_neg h1, cf_to_trott_approx, target_chars hpos, take_cons2]
    simp only [List.cons.injEq, true_and]
    exact take_digits_eq_iff
      (fracDigits_lt _ _) (targetDigits_lt l) (targetDigits_len l) hdsne

/-- `max_items - count` units of fuel make the fuel-indexed search agree
with `trott_backtracking`: the recursion depth is bounded by the
strictly decreasing measure `max_items - count` (each recursive call
raises `count` by exactly 1 and only fires while `count < max_items`). -/
lemma bt_fuel_spec :
    ∀ (fuel : Nat) (cur : List Int) (cnt mi ms : Nat), mi - cnt ≤ fuel →
      bt_fuel fuel cur cnt mi ms = trott_backtracking cur cnt mi ms := by
  intro fuel
  induction fuel with
  | zero =>
    intro cur cnt mi ms h
    have hc : ¬ cnt < mi := by omega
    rw [trott_backtracking]
    rw [dif_neg hc]
    rfl
  | succ fuel ih =>
    intro cur cnt mi ms h
    rw [bt_fuel, trott_backtracking]
    by_cases hc : cnt < mi
    · rw [if_pos hc, dif_pos hc]
      have hrec :
          (fun v => v :: bt_fuel fuel v (cnt + 1) mi ms) =
            (fun v => v :: trott_backtracking v (cnt + 1) mi ms) := by
        funext v
        rw [ih v (cnt + 1) mi ms (by omega)]
      simp only [hrec]
    · rw [if_neg hc, dif_neg hc]

/-- Invariant of the search: everything the backtracking reports passed
`valid_trott`, strictly extends the starting sequence, stays within the
depth budget, and only appends terms from `range(1, max_size)`. -/
lemma bt_fuel_mem {fuel : Nat} {cur : List Int} {cnt mi ms : Nat} {s : List Int}
    (hs : s ∈ bt_fuel fuel cur cnt mi ms) :
    valid_trott s = true ∧ cur <+: s ∧ cur.length < s.length ∧
      s.length ≤ cur.length + (mi - cnt) ∧
      (∀ x ∈ s, x ∈ cur ∨ (1 ≤ x ∧ x ≤ (ms : Int) - 1)) := by
  induction fuel generalizing cur cnt s with
  | zero => simp [bt_fuel] at hs
  | succ fuel ih =>
    rw [bt_fuel] at hs
    by_cases hc : cnt < mi
    · rw [if_pos hc] at hs
      by_cases he :
          (((List.range' 1 (ms - 1)).map (fun (a : Nat) => cur ++ [(a : Int)])).filter
            valid_trott).isEmpty
      · rw [if_pos he] at hs
        simp at hs
      · rw [if_neg he, List.mem_flatMap] at hs
        obtain ⟨v, hvmem, hsv⟩ := hs
        rw [List.mem_filter, List.mem_map] at hvmem
        obtain ⟨⟨a, harange, rfl⟩, hvt⟩ := hvmem
        rw [List.mem_range'_1] at harange
        have habound : (1 : Int) ≤ (a : Int) ∧ (a : Int) ≤ (ms : Int) - 1 := by
          constructor <;> [exact_mod_cast harange.1; omega]
        rw [List.mem_cons] at hsv
        rcases hsv with rfl | hsv
        · refine ⟨hvt, ⟨[(a : Int)], rfl⟩, by simp, by simp; omega, ?_⟩
          intro x hx
          rw [List.mem_append, List.mem_singleton] at hx
          rcases hx with hx | rfl
          · exact Or.inl hx
          · exact Or.inr habound
        · obtain ⟨ih1, ih2, ih3, ih4, ih5⟩ := ih hsv
          refine ⟨ih1, pre_trans ⟨[(a : Int)], rfl⟩ ih2, ?_, ?_, ?_⟩
          · have hlen : (cur ++ [(a : Int)]).length = cur.length + 1 := by simp
            omega
          · have hlen : (cur ++ [(a : Int)]).length = cur.length + 1 := by simp
            omega
          · intro x hx
            rcases ih5 x hx with hin | hb
            · rw [List.mem_append, List.mem_singleton] at hin
              rcases hin with hin | rfl
              · exact Or.inl hin
              · exact Or.inr habound
            · exact Or.inr hb
    · rw [if_neg hc] at hs
      simp at hs

/-- Ordering of reports: if the search started at `cur` reports `s`, and
`t` is a proper intermediate sequence on the path from `cur` to `s`
(a proper prefix of `s` properly extending `cur`), then the report list
splits as `A ++ B` with `t` reported in `A` and `s` reported in `B`:
`t` is reported strictly earlier than `s`. -/
lemma bt_fuel_order {fuel : Nat} {cur : List Int} {cnt mi ms : Nat} {s t : List Int}
    (hs : s ∈ bt_fuel fuel cur cnt mi ms)
    (hcur : cur <+: t) (hlen1 : cur.length < t.length)
    (hts : t <+: s) (hlen2 : t.length < s.length) :
    ∃ A B, bt_fuel fuel cur cnt mi ms = A ++ B ∧ t ∈ A ∧ s ∈ B := by
  induction fuel generalizing cur cnt with
  | zero => simp [bt_fuel] at hs
  | succ fuel ih =>
    rw [bt_fuel] at hs ⊢
    by_cases hc : cnt < mi
    · rw [if_pos hc] at hs ⊢
      by_cases he :
          (((List.range' 1 (ms - 1)).map (fun (a : Nat) => cur ++ [(a : Int)])).filter
            valid_trott).isEmpty
      · rw [if_pos he] at hs
        simp at hs
      · rw [if_neg he] at hs ⊢
        rw [List.mem_flatMap] at hs
        obtain ⟨v, hvmem, hsv⟩ := hs
        obtain ⟨l1, l2, hsplit⟩ := List.append_of_mem hvmem
        have hvmem' := hvmem
        rw [List.mem_filter, List.mem_map] at hvmem'
        obtain ⟨⟨a, _, hva⟩, _⟩ := hvmem'
        rw [List.mem_cons] at hsv
        rcases hsv with rfl | hsv
        · exfalso
          have : s.length = cur.length + 1 := by rw [← hva]; simp
          omega
        · have hmem := bt_fuel_mem hsv
          have hvpre : v <+: s := hmem.2.1
          have hvl : v.length = cur.length + 1 := by rw [← hva]; simp
          have htv_le : v.length ≤ t.length := by omega
          have hvt_pre : v <+: t := pre_chain hvpre hts htv_le
          by_cases htv : t.length = v.length
          · have hteq : t = v := (pre_antisym hvt_pre (by omega)).symm
            refine ⟨l1.flatMap (fun w => w :: bt_fuel fuel w (cnt + 1) mi ms) ++ [v],
              bt_fuel fuel v (cnt + 1) mi ms ++
                l2.flatMap (fun w => w :: bt_fuel fuel w (cnt + 1) mi ms), ?_, ?_, ?_⟩
            · rw [hsplit, List.flatMap_append, List.flatMap_cons]
              simp [List.append_assoc]
            · exact List.mem_append_right _ (List.mem_singleton.mpr hteq)
            · exact List.mem_append_left _ hsv
          · have hvt_lt : v.length < t.length := by omega
            obtain ⟨A', B', hAB, htA, hsB⟩ := ih hsv hvt_pre hvt_lt
            refine ⟨l1.flatMap (fun w => w :: bt_fuel fuel w (cnt + 1) mi ms) ++ v :: A',
              B' ++ l2.flatMap (fun w => w :: bt_fuel fuel w (cnt + 1) mi ms), ?_, ?_, ?_⟩
            · rw [hsplit, List.flatMap_append, List.flatMap_cons, hAB]
              simp [List.append_assoc]
            · exact List.mem_append_right _ (List.mem_cons_of_mem v htA)
            · exact List.mem_append_left _ hsB
    · rw [if_neg hc] at hs
      simp at hs

/-- Claim C1: for every `max_depth` (`max_items`) and `max_term`
(`max_size`), every sequence reported by the Backtracking Search Engine
started from the empty sequence at depth 0 passes the Validity Predicate
when re-checked standalone, and every proper non-empty prefix of a
reported sequence passed the predicate and was itself reported earlier
in the report list (the result set is prefix-closed, in report order). -/
theorem search_reports_valid_and_closed (mi ms : Nat) :
    (∀ s ∈ trott_backtracking [] 0 mi ms, valid_trott s = true) ∧
    (∀ s t : List Int, s ∈ trott_backtracking [] 0 mi ms → t ≠ [] → t <+: s → t ≠ s →
      valid_trott t = true ∧
        ∃ A B, trott_backtracking [] 0 mi ms = A ++ B ∧ t ∈ A ∧ s ∈ B) := by
  have hspec := bt_fuel_spec mi [] 0 mi ms (by omega)
  constructor
  · intro s hs
    rw [← hspec] at hs
    exact (bt_fuel_mem hs).1
  · intro s t hs htne htpre htne2
    rw [← hspec] at hs
    have h1 : ([] : List Int) <+: t := ⟨t, rfl⟩
    have hl1 : ([] : List Int).length < t.length := by
      have ht0 : t.length ≠ 0 := fun hh => htne (List.eq_nil_of_length_eq_zero hh)
      simpa using Nat.pos_of_ne_zero ht0
    have hl2 : t.length < s.length := by
      rcases lt_or_eq_of_le (pre_len htpre) with hlt | heq
      · exact hlt
      · exact absurd (pre_antisym htpre (le_of_eq heq.symm)) htne2
    obtain ⟨A, B, hAB, htA, hsB⟩ := bt_fuel_order hs h1 hl1 htpre hl2
    rw [hspec] at hAB
    refine ⟨?_, A, B, hAB, htA, hsB⟩
    have htR : t ∈ trott_backtracking [] 0 mi ms := by
      rw [hAB]
      exact List.mem_append_left B htA
    rw [← hspec] at htR
    exact (bt_fuel_mem htR).1

/-- Witness for C1: in the search with `max_items = 2`, `max_size = 30`,
the sequence `[3, 29]` is reported, its proper prefix `[3]` is valid and
the report list splits with `[3]` reported before `[3, 29]`. -/
theorem search_reports_valid_and_closed_w :
    (([3, 29] : List Int) ∈ trott_backtracking [] 0 2 30 ∧ ([3] : List Int) ≠ [] ∧
      ([3] : List Int) <+: [3, 29] ∧ ([3] : List Int) ≠ [3, 29]) ∧
    (valid_trott [3] = true ∧
      ∃ A B, trott_backtracking [] 0 2 30 = A ++ B ∧
        ([3] : List Int) ∈ A ∧ ([3, 29] : List Int) ∈ B) := by
  have hmem : ([3, 29] : List Int) ∈ trott_backtracking [] 0 2 30 := by
    rw [← bt_fuel_spec 2 [] 0 2 30 (by omega)]
    with_unfolding_all decide
  exact ⟨⟨hmem, by decide, ⟨[(29 : Int)], rfl⟩, by decide⟩,
    (search_reports_valid_and_closed 2 30).2 [3, 29] [3] hmem (by decide)
      ⟨[(29 : Int)], rfl⟩ (by decide)⟩

/-- Claim C8: every sequence reported by the search started from the
empty sequence at depth 0 has length between 1 and `max_items`, and all
its terms lie in the inclusive range `1 .. max_size - 1`. -/
theorem search_reported_shape (mi ms : Nat) :
    ∀ s ∈ trott_backtracking [] 0 mi ms,
      1 ≤ s.length ∧ s.length ≤ mi ∧ ∀ x ∈ s, 1 ≤ x ∧ x ≤ (ms : Int) - 1 := by
  intro s hs
  rw [← bt_fuel_spec mi [] 0 mi ms (by omega)] at hs
  obtain ⟨-, -, h3, h4, h5⟩ := bt_fuel_mem hs
  refine ⟨by simpa using h3, ?_, ?_⟩
  · simp only [List.length_nil] at h4
    omega
  · intro x hx
    rcases h5 x hx with hin | hb
    · simp at hin
    · exact hb

/-- Witness for C8: `[3]` is reported by the search with
`max_items = 1`, `max_size = 4`, has length 1 and its term is in
`[1, 3]`. -/
theorem search_reported_shape_w :
    (([3] : List Int) ∈ trott_backtracking [] 0 1 4) ∧
      (1 ≤ ([3] : List Int).length ∧ ([3] : List Int).length ≤ 1 ∧
        ∀ x ∈ ([3] : List Int), 1 ≤ x ∧ x ≤ (4 : Int) - 1) := by
  have hmem : ([3] : List Int) ∈ trott_backtracking [] 0 1 4 := by
    rw [← bt_fuel_spec 1 [] 0 1 4 (by omega)]
    with_unfolding_all decide
  exact ⟨hmem, search_reported_shape 1 4 [3] hmem⟩

/-- Claim C10: the backtracking search terminates for every starting
sequence, depth counter and bounds: `max_items - count` bounds the
recursion depth (a run with that much fuel already computes the full
answer), because expansion happens only while `count < max_items` and
each recursive call raises `count` by exactly 1; moreover a call at
`count ≥ max_items` expands nothing. -/
theorem backtracking_terminates (cur : List Int) (cnt mi ms fuel : Nat)
    (h : mi - cnt ≤ fuel) :
    bt_fuel fuel cur cnt mi ms = trott_backtracking cur cnt mi ms ∧
      (mi ≤ cnt → trott_backtracking cur cnt mi ms = []) := by
  refine ⟨bt_fuel_spec fuel cur cnt mi ms h, fun hle => ?_⟩
  rw [trott_backtracking, dif_neg (by omega)]

/-- Witness for C10 at `fuel = 1`, starting from the empty sequence with
`max_items = 1`, `max_size = 4`. -/
theorem backtracking_terminates_w :
    (1 - 0 ≤ 1) ∧
      (bt_fuel 1 [] 0 1 4 = trott_backtracking [] 0 1 4 ∧
        (1 ≤ 0 → trott_backtracking [] 0 1 4 = [])) :=
  ⟨by decide, backtracking_terminates [] 0 1 4 1 (by decide)⟩

/-- Claim C3: the CF Evaluator (exact arithmetic model) computes the
value of the continued fraction `1/(a1 + 1/(a2 + ... + 1/an))` for any
requested precision, and returns 0 on the empty sequence. -/
theorem cf_to_real_correct :
    (∀ (l : List Int) (P : Nat), (∀ t ∈ l, 0 < t) → cf_to_real l P = cf_value l) ∧
    (∀ P : Nat, cf_to_real [] P = 0) :=
  ⟨fun l P _ => cf_to_real_eq_value l P, fun _ => rfl⟩

/-- Witness for C3 at the sequence `[3, 7]` and precision 5. -/
theorem cf_to_real_correct_w :
    (∀ t ∈ ([3, 7] : List Int), 0 < t) ∧ cf_to_real [3, 7] 5 = cf_value [3, 7] :=
  ⟨by decide, cf_to_real_correct.1 [3, 7] 5 (by decide)⟩

/-- Claim C9: on sequences whose terms are all `≥ 1`, the CF Evaluator
never divides by zero (the checked evaluator succeeds and agrees with
the unchecked one), and its value lies in `[0, 1]`, positive whenever
the sequence is non-empty.  The underlying fold invariant
(`cf_fold_inv`) keeps the running value in `[0, 1]`, so every
denominator `t + curr` is at least 1. -/
theorem cf_evaluator_safe (l : List Int) (P : Nat) (h : ∀ t ∈ l, 1 ≤ t) :
    cf_to_real_checked l P = some (cf_to_real l P) ∧
      0 ≤ cf_to_real l P ∧ cf_to_real l P ≤ 1 ∧
      (l ≠ [] → 0 < cf_to_real l P) :=
  cf_real_props h P

/-- Witness for C9 at the sequence `[3, 7]` and precision 0. -/
theorem cf_evaluator_safe_w :
    (∀ t ∈ ([3, 7] : List Int), (1 : Int) ≤ t) ∧
      (cf_to_real_checked [3, 7] 0 = some (cf_to_real [3, 7] 0) ∧
        0 ≤ cf_to_real [3, 7] 0 ∧ cf_to_real [3, 7] 0 ≤ 1 ∧
        (([3, 7] : List Int) ≠ [] → 0 < cf_to_real [3, 7] 0)) :=
  ⟨by decide, cf_evaluator_safe [3, 7] 0 (by decide)⟩

lemma int_str_len {t : Int} (h : 0 < t) :
    (int_str t).length = (Nat.digits 10 t.toNat).length := by
  rw [int_str_pos h, List.length_map, List.length_reverse]

/-- Claim C7: on positive-integer sequences the Digit Counter returns
the sum of the lengths of the terms' decimal representations (both as
`str` models and as `Nat.digits`); on `[100, 5, 7, 99]` it returns 7. -/
theorem count_digits_correct :
    (∀ l : List Int, (∀ t ∈ l, 0 < t) →
      count_digits l = (l.map (fun t => (int_str t).length)).sum ∧
      count_digits l = (l.map (fun t => (Nat.digits 10 t.toNat).length)).sum) ∧
    count_digits [100, 5, 7, 99] = 7 := by
  refine ⟨fun l h => ⟨?_, count_digits_eq l⟩, by decide⟩
  rw [count_digits_eq l]
  refine congrArg List.sum (List.map_congr_left fun t ht => ?_).symm
  exact int_str_len (h t ht)

/-- Witness for C7 at `[100, 5, 7, 99]`. -/
theorem count_digits_correct_w :
    (∀ t ∈ ([100, 5, 7, 99] : List Int), 0 < t) ∧
      (count_digits [100, 5, 7, 99] =
          (([100, 5, 7, 99] : List Int).map (fun t => (int_str t).length)).sum ∧
        count_digits [100, 5, 7, 99] =
          (([100, 5, 7, 99] : List Int).map
              (fun t => (Nat.digits 10 t.toNat).length)).sum) :=
  ⟨by decide, count_digits_correct.1 [100, 5, 7, 99] (by decide)⟩

/-- Claim C2: for a sequence of positive terms with total digit count
`d`, the Validity Predicate holds iff the first `d + 2` characters of
the decimal rendering of the evaluated value (displayed at the ambient
`d + 2 + 16` significant digits) equal `"0."` followed by the
concatenated canonical base-10 digit strings of the terms. -/
theorem valid_trott_string_spec (l : List Int) (h : ∀ t ∈ l, 0 < t) :
    valid_trott l = true ↔
      (mp_str (cf_to_real l ((l.map (fun t => (Nat.digits 10 t.toNat).length)).sum + 2))
          ((l.map (fun t => (Nat.digits 10 t.toNat).length)).sum + 2 + 16)).take
          ((l.map (fun t => (Nat.digits 10 t.toNat).length)).sum + 2) =
        '0' :: '.' ::
          (l.map (fun t => ((Nat.digits 10 t.toNat).reverse).map Nat.digitChar)).flatten := by
  have hD : count_digits l = (l.map (fun t => (Nat.digits 10 t.toNat).length)).sum :=
    count_digits_eq l
  have htc : cf_to_trott_approx l =
      '0' :: '.' ::
        (l.map (fun t => ((Nat.digits 10 t.toNat).reverse).map Nat.digitChar)).flatten := by
    rw [cf_to_trott_approx]
    refine congrArg (fun cs => '0' :: '.' :: cs)
      (congrArg List.flatten (List.map_congr_left fun t ht => ?_))
    exact int_str_pos (h t ht)
  simp only [valid_trott, beq_iff_eq]
  rw [← hD, htc]

/-- Witness for C2 at `[3, 29]`. -/
theorem valid_trott_string_spec_w :
    (∀ t ∈ ([3, 29] : List Int), 0 < t) ∧
      (valid_trott [3, 29] = true ↔
        (mp_str
            (cf_to_real [3, 29]
              ((([3, 29] : List Int).map (fun t => (Nat.digits 10 t.toNat).length)).sum + 2))
            ((([3, 29] : List Int).map (fun t => (Nat.digits 10 t.toNat).length)).sum + 2 +
              16)).take
            ((([3, 29] : List Int).map (fun t => (Nat.digits 10 t.toNat).length)).sum + 2) =
          '0' :: '.' ::
            (([3, 29] : List Int).map
                (fun t => ((Nat.digits 10 t.toNat).reverse).map Nat.digitChar)).flatten) :=
  ⟨by decide, valid_trott_string_spec [3, 29] (by decide)⟩

/-- Claim C5: the eight recorded Validity Predicate scenarios. -/
theorem valid_trott_scenarios :
    valid_trott [3, 29, 5, 7] = true ∧ valid_trott [3, 29, 5, 8] = false ∧
    valid_trott [3] = true ∧ valid_trott [3, 30] = false ∧
    valid_trott [3, 29] = true ∧ valid_trott [3, 333329] = true ∧
    valid_trott [3, 3333329] = true ∧ valid_trott [3, 33333329] = true := by
  with_unfolding_all decide

/-- Counterexample to C4 as stated: for the sequence `[10]` the target
digits `1, 0` are a prefix of the decimal expansion of the evaluated
value `1/10 = 0.1000...` at the guard precision, yet the Validity
Predicate rejects `[10]`, because the rendering of the value is the
stripped string `"0.1"`, shorter than the 4 compared characters. -/
theorem valid_trott_initseg_fails :
    valid_trott [10] = false ∧
      targetDigits [10] <+:
        fracDigits (cf_to_real [10] (count_digits [10] + 2))
          (count_digits [10] + 2 + 16) := by
  constructor
  · with_unfolding_all decide
  · refine take_len_pre ?_
    have h1 : Nat.digits 10 1 = [1] := by
      rw [Nat.digits_def' (by norm_num : (1 : ℕ) < 10) (by norm_num : 0 < 1)]
      norm_num
    have hdig : Nat.digits 10 10 = [0, 1] := by
      rw [Nat.digits_def' (by norm_num : (1 : ℕ) < 10) (by norm_num : 0 < 10)]
      norm_num [h1]
    have htd : targetDigits [10] = [1, 0] := by
      rw [targetDigits]
      simp [hdig]
    rw [htd]
    with_unfolding_all decide

/-- Claim C4, amended: for non-empty sequences of terms `≥ 1`, the
Validity Predicate holds iff the target digits are an initial segment of
the decimal expansion of the evaluated value at the display precision
AND the rendered value string, after mpmath's trailing-zero stripping,
still shows at least `count_digits` fractional digits (this second
condition is what `[10]` violates); the empty sequence is rejected
outright, since its evaluated value is the plain int 0, rendered `"0"`;
validity never requires exact numeric equality, as `[3]` is valid while
its value `1/3` differs from `3/10`. -/
theorem valid_trott_initseg_iff :
    (∀ l : List Int, l ≠ [] → (∀ t ∈ l, 1 ≤ t) →
      (valid_trott l = true ↔
        (targetDigits l <+:
            fracDigits (cf_to_real l (count_digits l + 2)) (count_digits l + 2 + 16) ∧
          count_digits l ≤
            (stripTrailZeros
                (fracDigits (cf_to_real l (count_digits l + 2))
                  (count_digits l + 2 + 16))).length))) ∧
    valid_trott [] = false ∧
    (valid_trott [3] = true ∧ cf_to_real [3] 3 ≠ 3 / 10) := by
  refine ⟨fun l hne h => valid_trott_iff_digits hne h, ?_, ?_, ?_⟩
  · with_unfolding_all decide
  · with_unfolding_all decide
  · with_unfolding_all decide

/-- Witness for the amended C4 at the non-empty sequence `[3, 29]`. -/
theorem valid_trott_initseg_iff_w :
    (([3, 29] : List Int) ≠ [] ∧ ∀ t ∈ ([3, 29] : List Int), (1 : Int) ≤ t) ∧
      (valid_trott [3, 29] = true ↔
        (targetDigits [3, 29] <+:
            fracDigits (cf_to_real [3, 29] (count_digits [3, 29] + 2))
              (count_digits [3, 29] + 2 + 16) ∧
          count_digits [3, 29] ≤
            (stripTrailZeros
                (fracDigits (cf_to_real [3, 29] (count_digits [3, 29] + 2))
                  (count_digits [3, 29] + 2 + 16))).length)) :=
  ⟨⟨by decide, by decide⟩, valid_trott_initseg_iff.1 [3, 29] (by decide) (by decide)⟩

/-- Counterexample to C6 as stated: the Digit Counter raises no error on
zero or negative terms — its loop simply never runs for them, so it
returns normally (counting 0 digits for the offending term); there is no
`MalformedTerm` error anywhere in the code. -/
theorem count_digits_no_error :
    count_digits [0] = 0 ∧ count_digits [-3] = 0 := by
  decide

/-- Claim C6, amended: a term `≤ 0` contributes zero digits to the
Digit Counter, which returns normally — the code defines no
`MalformedTerm` error.  The error the code can actually raise on a zero
term is the division by zero inside the CF Evaluator
(`1 / mpf(0 + 0)`, modelled by `none`), and since the Validity
Predicate wraps the evaluator in no handler, that error escapes the
predicate uncaught instead of being converted into a `false` result;
on sequences of terms `≥ 1` no error occurs and the predicate returns
an ordinary Boolean. -/
theorem nonpositive_term_behavior :
    (∀ (l : List Int) (t : Int), t ≤ 0 → count_digits (t :: l) = count_digits l) ∧
    cf_to_real_checked [0] 2 = none ∧
    valid_trott_checked [0] = none ∧
    (∀ l : List Int, (∀ t ∈ l, 1 ≤ t) →
      valid_trott_checked l = some (valid_trott l)) := by
  refine ⟨?_, ?_, ?_, ?_⟩
  · intro l t ht
    have htn : t.toNat = 0 := by omega
    have hdl : digit_loop t = 0 := by
      rw [digit_loop, htn]
      rfl
    rw [count_digits, count_digits, List.foldl_cons, hdl]
  · with_unfolding_all decide
  · with_unfolding_all decide
  · intro l h
    have hch := (cf_real_props h (count_digits l + 2)).1
    simp only [valid_trott_checked, valid_trott, hch]

/-- Witness for the amended C6: the term `-2` prepended to `[5]` for the
Digit Counter part, and the well-formed `[3]` for the no-error part. -/
theorem nonpositive_term_behavior_w :
    (((-2 : Int) ≤ 0) ∧ count_digits [(-2 : Int), 5] = count_digits [5]) ∧
    ((∀ t ∈ ([3] : List Int), (1 : Int) ≤ t) ∧
      valid_trott_checked [3] = some (valid_trott [3])) :=
  ⟨⟨by decide, nonpositive_term_behavior.1 [5] (-2) (by decide)⟩,
    ⟨by decide, nonpositive_term_behavior.2.2.2 [3] (by decide)⟩⟩
